import Mathlib

/-!
Verification of the morse-cli program (src/main.rs): a shallow embedding of
the symbol parser, the instruction sequencer and the two renderers, together
with theorems settling the specification claims.

Modelling conventions:
* Rust strings are modelled through their character lists (`String.toList`).
* Rust `usize` arithmetic is modelled on `Nat`.  The sequencer computes
  `letter.len() - 1` on an unsigned count; on an empty letter this underflows
  (a panic in debug builds, a wraparound in release builds).  The sequencer is
  therefore embedded twice: `parse_morse_code_wrap` is the release-mode result
  (Lean's truncated `Nat` subtraction coincides with the wrapped behaviour
  because the inner loop of an empty letter runs zero times), while
  `parse_morse_code` returns `none` exactly when some letter is empty, i.e.
  when the `letter.len() - 1` subtraction underflows.
* `f32` quantities (frequency, unit) are modelled as exact rationals; the
  `as u64` / `as u64`-style casts are modelled as floor-then-truncate-to-Nat,
  which agrees with Rust's saturating float-to-int casts on the values at
  stake here.
* The offline renderer's written samples are modelled as descriptors: a tone
  sample is determined by the configured frequency and its index inside the
  tone (the concrete i16 value is a fixed pure function of those two), a gap
  sample is the literal zero sample written by `wav_sleep`.
-/

namespace MorseCli

/-- Morse symbols, from `enum MorseCode` (src/main.rs lines 17-21). -/
inductive MorseCode where
  | Dah
  | Dit
deriving DecidableEq

/-- Playback instructions, from `enum Instruction` (src/main.rs lines 23-29). -/
inductive Instruction where
  | Morse (c : MorseCode)
  | SymbolSpace
  | LetterSpace
  | WordSpace
deriving DecidableEq

/-- `TryFrom<char> for MorseCode` (src/main.rs lines 37-49): `-` parses to
`Dah`, `.` parses to `Dit`, and every other character produces the fixed
error string "unprocessable code points". -/
def MorseCode.tryFromChar : Char → Except String MorseCode
  | '-' => Except.ok MorseCode.Dah
  | '.' => Except.ok MorseCode.Dit
  | _ => Except.error "unprocessable code points"

/-- Rust's `str::split(' ')`: split on every single space character; the empty
string yields one empty piece, adjacent separators yield empty pieces. -/
def splitOnSpace : List Char → List (List Char)
  | [] => [[]]
  | c :: rest =>
    match splitOnSpace rest with
    | [] => if c = ' ' then [[], []] else [[c]]
    | w :: ws => if c = ' ' then [] :: w :: ws else (c :: w) :: ws

/-- The per-letter map of `parse_morse_code` (src/main.rs lines 87-94):
`word.chars().map(TryFrom::try_from).flatten().map(Instruction::Morse)`.
Flattening an iterator of `Result`s drops the `Err` items, which is exactly
`filterMap` through `Except.toOption`. -/
def letterInstructions (word : List Char) : List Instruction :=
  (word.filterMap fun c => (MorseCode.tryFromChar c).toOption).map Instruction.Morse

/-- The parsed letters of an input string (src/main.rs lines 84-95). -/
def lettersOf (code : String) : List (List Instruction) :=
  (splitOnSpace code.toList).map letterInstructions

/-- Rust's `Iterator::enumerate`, starting from index `k`. -/
def enumerate {α : Type} : Nat → List α → List (Nat × α)
  | _, [] => []
  | k, x :: xs => (k, x) :: enumerate (k + 1) xs

/-- The inner loop of `parse_morse_code` (src/main.rs lines 105-112): push each
morse instruction of the letter, and after it a `SymbolSpace` whenever its
index is below `letter_code_len = letter.len() - 1`. -/
def letterBody (letter : List Instruction) : List Instruction :=
  ((enumerate 0 letter).map fun p =>
    [p.2] ++ (if p.1 < letter.length - 1 then [Instruction.SymbolSpace] else [])).flatten

/-- The sequencer `parse_morse_code` (src/main.rs lines 83-123) as compiled in
release mode, where the `letter.len() - 1` underflow wraps: the wrapped bound
is never consulted because an empty letter's inner loop runs zero times, so
truncated `Nat` subtraction yields the identical instruction list. -/
def parse_morse_code_wrap (code : String) : List Instruction :=
  ((enumerate 0 (lettersOf code)).map fun p =>
    letterBody p.2 ++
      (if p.1 < (lettersOf code).length - 1 then [Instruction.LetterSpace] else [])).flatten

/-- True when the sequencer evaluates `letter.len() - 1` on an empty letter,
i.e. when the unsigned subtraction at src/main.rs line 105 underflows. -/
def sequencerUnderflows (code : String) : Bool :=
  (lettersOf code).any fun l => l.isEmpty

/-- The sequencer `parse_morse_code` (src/main.rs lines 83-123) under debug
overflow semantics: `none` models the `attempt to subtract with overflow`
panic raised by `letter.len() - 1` on an empty letter. -/
def parse_morse_code (code : String) : Option (List Instruction) :=
  if sequencerUnderflows code then none else some (parse_morse_code_wrap code)

/-- A character admitted by the symbol parser. -/
def validChar (c : Char) : Bool := c = '.' || c = '-'

/-- A valid Morse string in the sense of the spec: letters made of `.`/`-`
separated by single spaces (so every space-split token is a non-empty run of
valid symbol characters). -/
def validMorse (code : String) : Bool :=
  (splitOnSpace code.toList).all fun w => !w.isEmpty && w.all validChar

/-- A Tone instruction (spec vocabulary for `Instruction::Morse`). -/
def isTone : Instruction → Bool
  | .Morse _ => true
  | _ => false

/-- A gap (non-tone) instruction. -/
def isGap : Instruction → Bool
  | .Morse _ => false
  | _ => true

/-- The rendering configuration taken from `Args` (src/main.rs lines 10-15):
the tone frequency and the unit duration in seconds, as exact rationals. -/
structure RenderConfig where
  frequency : ℚ
  unit : ℚ
deriving DecidableEq

/-- `dit_samples` of `render_audio` (src/main.rs lines 173-174): the code
computes `spec.sample_rate as f32 / args.unit` — a division by the unit —
and truncates the result to `u64`. -/
def ditSamples (unit : ℚ) : ℕ := (⌊(44100 : ℚ) / unit⌋).toNat

/-- `dah_samples` of `render_audio` (src/main.rs line 175). -/
def dahSamples (unit : ℚ) : ℕ := ditSamples unit * 3

/-- One 16-bit sample written by `render_audio`, as a descriptor: a tone
sample is the fixed function of the configured frequency and the sample index
computed at src/main.rs lines 183-186, a silence sample is the literal `0`
written by `wav_sleep` (line 160). -/
inductive Sample where
  | tone (freq : ℚ) (i : ℕ)
  | silence
deriving DecidableEq

/-- The WAV format header of `render_audio` (src/main.rs lines 165-170):
mono, 44100 Hz, 16-bit integer samples. -/
structure WavSpec where
  channels : ℕ
  sample_rate : ℕ
  bits_per_sample : ℕ
deriving DecidableEq

/-- The constant `spec` value of `render_audio`. -/
def renderSpec : WavSpec := ⟨1, 44100, 16⟩

/-- The samples one instruction contributes in `render_audio`'s match
(src/main.rs lines 180-200); `none` models the `unreachable!()` panic on
`WordSpace`. -/
def instructionSamples (cfg : RenderConfig) : Instruction → Option (List Sample)
  | .Morse .Dit => some ((List.range (ditSamples cfg.unit)).map fun x => Sample.tone cfg.frequency x)
  | .Morse .Dah => some ((List.range (dahSamples cfg.unit)).map fun x => Sample.tone cfg.frequency x)
  | .SymbolSpace => some (List.replicate (ditSamples cfg.unit) Sample.silence)
  | .LetterSpace => some (List.replicate (dahSamples cfg.unit) Sample.silence)
  | .WordSpace => none

/-- The offline renderer `render_audio` (src/main.rs lines 157-202): the
ordered concatenation of every instruction's samples; `none` models the
`unreachable!()` panic. -/
def renderAudio (cfg : RenderConfig) : List Instruction → Option (List Sample)
  | [] => some []
  | i :: rest => do
    let s ← instructionSamples cfg i
    let r ← renderAudio cfg rest
    pure (s ++ r)

/-- `dot_duration` of `play_audio` (src/main.rs line 130):
`Duration::from_millis((unit * 1000.) as u64)`, in milliseconds. -/
def dotDurationMs (unit : ℚ) : ℕ := (⌊(unit * 1000 : ℚ)⌋).toNat

/-- One observable action of the live renderer: enqueue-and-await a tone of
the given millisecond duration, or sleep for the given duration. -/
inductive PlayAction where
  | playTone (ms : ℕ)
  | wait (ms : ℕ)
deriving DecidableEq

/-- The live renderer `play_audio` (src/main.rs lines 125-155) as its ordered
action trace; `none` models the `unreachable!()` panic on `WordSpace`. -/
def playAudio (cfg : RenderConfig) : List Instruction → Option (List PlayAction)
  | [] => some []
  | i :: rest => do
    let a ← (match i with
      | .Morse .Dit => some (PlayAction.playTone (dotDurationMs cfg.unit))
      | .Morse .Dah => some (PlayAction.playTone (dotDurationMs cfg.unit * 3))
      | .SymbolSpace => some (PlayAction.wait (dotDurationMs cfg.unit))
      | .LetterSpace => some (PlayAction.wait (dotDurationMs cfg.unit * 3))
      | .WordSpace => none)
    let r ← playAudio cfg rest
    pure (a :: r)

/-- Big-step rendering relation of `render_audio`: the writer, started on the
given instruction list, terminates having written exactly the given sample
list.  There is no rule for `WordSpace` (the `unreachable!()` arm). -/
inductive RendersTo (cfg : RenderConfig) : List Instruction → List Sample → Prop where
  | nil : RendersTo cfg [] []
  | cons {i : Instruction} {rest : List Instruction} {s out : List Sample} :
      instructionSamples cfg i = some s → RendersTo cfg rest out →
      RendersTo cfg (i :: rest) (s ++ out)

/-- Abstract "emit each element's block, with a separator between consecutive
blocks" list, used to reason about both loops of the sequencer. -/
def joinSep {α β : Type} (g : α → List β) (sep : β) : List α → List β
  | [] => []
  | [a] => g a
  | a :: b :: rest => g a ++ sep :: joinSep g sep (b :: rest)

end MorseCli


namespace MorseCli

/-! ## Structural lemmas about the sequencer loops -/

/-- The enumerate-and-append-separator loop shape shared by both sequencer
loops: when the bound is the enumeration offset plus the list length minus
one, the separator lands exactly between consecutive blocks. -/
theorem enumerate_flatten_eq_joinSep {α β : Type} (g : α → List β) (sep : β) :
    ∀ (l : List α) (k n : ℕ), n = k + l.length - 1 →
    (((enumerate k l).map fun p => g p.2 ++ (if p.1 < n then [sep] else [])).flatten)
      = joinSep g sep l := by
  intro l
  induction l with
  | nil => intro k n _; rfl
  | cons a rest ih =>
    intro k n hn
    cases rest with
    | nil =>
      have hk : ¬ k < n := by simp at hn; omega
      simp [enumerate, joinSep, hk]
    | cons b rest2 =>
      have hk : k < n := by simp at hn; omega
      have hn2 : n = (k + 1) + (b :: rest2).length - 1 := by simp at hn ⊢; omega
      rw [show enumerate k (a :: b :: rest2) = (k, a) :: enumerate (k + 1) (b :: rest2) from rfl]
      simp only [List.map_cons, List.flatten_cons]
      rw [if_pos hk, ih (k + 1) n hn2]
      simp [joinSep]

/-- The inner sequencer loop is the letter's instructions with a `SymbolSpace`
between consecutive ones. -/
theorem letterBody_eq_joinSep (letter : List Instruction) :
    letterBody letter = joinSep (fun i => [i]) Instruction.SymbolSpace letter := by
  unfold letterBody
  exact enumerate_flatten_eq_joinSep (fun i => [i]) Instruction.SymbolSpace letter 0
    (letter.length - 1) (by omega)

/-- The outer sequencer loop is the letter bodies with a `LetterSpace` between
consecutive ones. -/
theorem wrap_eq_joinSep (code : String) :
    parse_morse_code_wrap code
      = joinSep letterBody Instruction.LetterSpace (lettersOf code) := by
  unfold parse_morse_code_wrap
  exact enumerate_flatten_eq_joinSep letterBody Instruction.LetterSpace (lettersOf code) 0
    ((lettersOf code).length - 1) (by omega)

/-- Length of a separated join. -/
theorem joinSep_length {α β : Type} (g : α → List β) (sep : β) :
    ∀ l : List α,
      (joinSep g sep l).length = (l.map fun a => (g a).length).sum + (l.length - 1) := by
  intro l
  induction l with
  | nil => rfl
  | cons a rest ih =>
    cases rest with
    | nil => simp [joinSep]
    | cons b rest2 =>
      simp only [joinSep, List.length_append, List.length_cons, List.map_cons,
        List.sum_cons] at ih ⊢
      omega

/-- A separated join of non-empty blocks over a non-empty list is non-empty. -/
theorem joinSep_ne_nil {α β : Type} (g : α → List β) (sep : β) (l : List α)
    (hl : l ≠ []) (h : ∀ a ∈ l, g a ≠ []) : joinSep g sep l ≠ [] := by
  cases l with
  | nil => exact absurd rfl hl
  | cons a rest =>
    cases rest with
    | nil => simpa [joinSep] using h a (by simp)
    | cons b rest2 => simp [joinSep]

/-- The first element of a separated join is the first element of the first
block. -/
theorem joinSep_head {α β : Type} (g : α → List β) (sep : β) (a : α) (l : List α)
    (ha : g a ≠ []) : (joinSep g sep (a :: l)).head? = (g a).head? := by
  obtain ⟨x, t, hx⟩ := List.exists_cons_of_ne_nil ha
  cases l <;> simp [joinSep, hx]

/-- The last element of a separated join is the last element of some block. -/
theorem joinSep_getLast {α β : Type} (g : α → List β) (sep : β) :
    ∀ l : List α, l ≠ [] → (∀ a ∈ l, g a ≠ []) →
    ∃ a ∈ l, (joinSep g sep l).getLast? = (g a).getLast? := by
  intro l
  induction l with
  | nil => intro h _; exact absurd rfl h
  | cons a rest ih =>
    intro _ h
    cases rest with
    | nil => exact ⟨a, by simp, rfl⟩
    | cons b rest2 =>
      obtain ⟨c, hc, hceq⟩ := ih (by simp) fun x hx => h x (List.mem_cons_of_mem _ hx)
      have hJ : joinSep g sep (b :: rest2) ≠ [] :=
        joinSep_ne_nil g sep _ (by simp) fun x hx => h x (List.mem_cons_of_mem _ hx)
      refine ⟨c, List.mem_cons_of_mem _ hc, ?_⟩
      show (g a ++ sep :: joinSep g sep (b :: rest2)).getLast? = (g c).getLast?
      rw [List.getLast?_append_of_ne_nil _ (by simp)]
      obtain ⟨y, J, hy⟩ := List.exists_cons_of_ne_nil hJ
      rw [hy, List.getLast?_cons_cons, ← hy, hceq]

/-- Every member of a separated join is the separator or a member of some
block. -/
theorem joinSep_mem {α β : Type} (g : α → List β) (sep : β) :
    ∀ (l : List α) (x : β), x ∈ joinSep g sep l → x = sep ∨ ∃ a ∈ l, x ∈ g a := by
  intro l
  induction l with
  | nil => intro x hx; cases hx
  | cons a rest ih =>
    intro x hx
    cases rest with
    | nil => exact Or.inr ⟨a, by simp, hx⟩
    | cons b rest2 =>
      simp only [joinSep, List.mem_append, List.mem_cons] at hx
      rcases hx with h | h | h
      · exact Or.inr ⟨a, by simp, h⟩
      · exact Or.inl h
      · rcases ih x h with h' | ⟨c, hc, hcx⟩
        · exact Or.inl h'
        · exact Or.inr ⟨c, List.mem_cons_of_mem _ hc, hcx⟩

end MorseCli

namespace MorseCli

/-! ## Lemmas about letters and validity -/

theorem tryFromChar_dot : MorseCode.tryFromChar '.' = Except.ok MorseCode.Dit := rfl

theorem tryFromChar_dash : MorseCode.tryFromChar '-' = Except.ok MorseCode.Dah := rfl

/-- Every instruction a letter parses to is a tone. -/
theorem letterInstructions_morse (word : List Char) :
    ∀ x ∈ letterInstructions word, ∃ s, x = Instruction.Morse s := by
  intro x hx
  simp only [letterInstructions, List.mem_map] at hx
  obtain ⟨m, _, hm⟩ := hx
  exact ⟨m, hm.symm⟩

/-- On a word of valid symbol characters nothing is dropped: one instruction
per character. -/
theorem letterInstructions_length (word : List Char) (h : word.all validChar = true) :
    (letterInstructions word).length = word.length := by
  induction word with
  | nil => rfl
  | cons c rest ih =>
    simp only [List.all_cons, Bool.and_eq_true] at h
    have h2 := ih h.2
    rcases (show c = '.' ∨ c = '-' by
        have hc := h.1; simp only [validChar, Bool.or_eq_true, decide_eq_true_eq] at hc
        exact hc) with rfl | rfl <;>
      simp only [letterInstructions, List.filterMap_cons, tryFromChar_dot, tryFromChar_dash,
        Except.toOption, List.map_cons, List.length_cons] at h2 ⊢ <;>
      omega

/-- The words of a valid Morse string are non-empty and made of valid symbol
characters. -/
theorem validMorse_words (code : String) (h : validMorse code = true) :
    ∀ w ∈ splitOnSpace code.toList, w ≠ [] ∧ w.all validChar = true := by
  intro w hw
  simp only [validMorse, List.all_eq_true] at h
  have hcur := h w hw
  simp only [Bool.and_eq_true, Bool.not_eq_true'] at hcur
  refine ⟨?_, hcur.2⟩
  intro hnil
  subst hnil
  simp at hcur

/-- Under validity every parsed letter is non-empty. -/
theorem validMorse_letters_ne_nil (code : String) (h : validMorse code = true) :
    ∀ le ∈ lettersOf code, le ≠ [] := by
  intro le hle
  simp only [lettersOf, List.mem_map] at hle
  obtain ⟨w, hw, rfl⟩ := hle
  obtain ⟨hne, hval⟩ := validMorse_words code h w hw
  intro hnil
  have hlen := letterInstructions_length w hval
  rw [hnil] at hlen
  cases w with
  | nil => exact hne rfl
  | cons _ _ => simp at hlen

/-- Under validity the sequencer's length-minus-one subtractions do not
underflow. -/
theorem validMorse_no_underflow (code : String) (h : validMorse code = true) :
    sequencerUnderflows code = false := by
  simp only [sequencerUnderflows, List.any_eq_false]
  intro le hle
  simpa [List.isEmpty_iff] using validMorse_letters_ne_nil code h le hle

/-- On a valid Morse string the sequencer returns the letter bodies separated
by letter gaps. -/
theorem parse_morse_code_valid (code : String) (h : validMorse code = true) :
    parse_morse_code code
      = some (joinSep letterBody Instruction.LetterSpace (lettersOf code)) := by
  rw [parse_morse_code, validMorse_no_underflow code h, ← wrap_eq_joinSep]
  rfl

/-- Splitting always yields at least one word. -/
theorem splitOnSpace_ne_nil (cs : List Char) : splitOnSpace cs ≠ [] := by
  cases cs with
  | nil => simp [splitOnSpace]
  | cons c rest =>
    unfold splitOnSpace
    split <;> split <;> simp

/-- There is always at least one (possibly empty) letter. -/
theorem lettersOf_ne_nil (code : String) : lettersOf code ≠ [] := by
  unfold lettersOf
  intro hmap
  exact splitOnSpace_ne_nil code.toList (List.map_eq_nil_iff.mp hmap)

theorem sum_ones (le : List Instruction) :
    (le.map fun a => ([a] : List Instruction).length).sum = le.length := by
  induction le with
  | nil => rfl
  | cons a rest ih =>
    show ((1 : ℕ) :: rest.map fun a => ([a] : List Instruction).length).sum = rest.length + 1
    rw [List.sum_cons, ih]
    omega

/-- The inner loop emits `2 * symbols - 1` instructions on a non-empty letter
(and `length + (length - 1)` in general). -/
theorem letterBody_length (le : List Instruction) :
    (letterBody le).length = le.length + (le.length - 1) := by
  rw [letterBody_eq_joinSep, joinSep_length]
  rw [sum_ones]

/-- Summing the body lengths over valid words gives the per-letter
`2 * symbols - 1` totals. -/
theorem sum_letter_lengths (ws : List (List Char))
    (h : ∀ w ∈ ws, w ≠ [] ∧ w.all validChar = true) :
    ((ws.map letterInstructions).map fun le => (letterBody le).length).sum
      = (ws.map fun w => 2 * w.length - 1).sum := by
  induction ws with
  | nil => rfl
  | cons w rest ih =>
    simp only [List.map_cons, List.sum_cons]
    rw [ih fun x hx => h x (List.mem_cons_of_mem _ hx)]
    obtain ⟨hne, hval⟩ := h w (by simp)
    have hlen := letterInstructions_length w hval
    have hbody := letterBody_length (letterInstructions w)
    have hpos : 0 < w.length := List.length_pos.mpr hne
    omega

end MorseCli

namespace MorseCli

/-! ## Renderer totality away from WordSpace -/

/-- A successful parse is exactly the release-mode instruction list. -/
theorem parse_morse_code_some (code : String) (l : List Instruction)
    (h : parse_morse_code code = some l) : l = parse_morse_code_wrap code := by
  unfold parse_morse_code at h
  split at h
  · cases h
  · exact (Option.some.inj h).symm

/-- Everything the sequencer emits is a tone, a symbol gap or a letter gap. -/
theorem parse_morse_code_mem (code : String) (l : List Instruction)
    (h : parse_morse_code code = some l) :
    ∀ x ∈ l, x ≠ Instruction.WordSpace := by
  intro x hx
  rw [parse_morse_code_some code l h, wrap_eq_joinSep] at hx
  rcases joinSep_mem _ _ _ x hx with rfl | ⟨le, hle, hxle⟩
  · simp
  · rw [letterBody_eq_joinSep] at hxle
    rcases joinSep_mem _ _ _ x hxle with rfl | ⟨a, ha, hxa⟩
    · simp
    · have hax : x = a := by simpa using hxa
      subst hax
      simp only [lettersOf, List.mem_map] at hle
      obtain ⟨w, _, rfl⟩ := hle
      obtain ⟨s, rfl⟩ := letterInstructions_morse w x ha
      simp

/-- The offline renderer succeeds on any sequence free of `WordSpace`. -/
theorem renderAudio_total (cfg : RenderConfig) :
    ∀ l : List Instruction, (∀ x ∈ l, x ≠ Instruction.WordSpace) →
    ∃ out, renderAudio cfg l = some out := by
  intro l
  induction l with
  | nil => exact fun _ => ⟨[], rfl⟩
  | cons i rest ih =>
    intro h
    obtain ⟨out, hout⟩ := ih fun x hx => h x (List.mem_cons_of_mem _ hx)
    obtain ⟨s, hs⟩ : ∃ s, instructionSamples cfg i = some s := by
      cases i with
      | Morse c => cases c <;> exact ⟨_, rfl⟩
      | SymbolSpace => exact ⟨_, rfl⟩
      | LetterSpace => exact ⟨_, rfl⟩
      | WordSpace => exact absurd rfl (h _ (by simp))
    exact ⟨s ++ out, by simp [renderAudio, hs, hout]⟩

/-- The live renderer succeeds on any sequence free of `WordSpace`. -/
theorem playAudio_total (cfg : RenderConfig) :
    ∀ l : List Instruction, (∀ x ∈ l, x ≠ Instruction.WordSpace) →
    ∃ acts, playAudio cfg l = some acts := by
  intro l
  induction l with
  | nil => exact fun _ => ⟨[], rfl⟩
  | cons i rest ih =>
    intro h
    obtain ⟨acts, hacts⟩ := ih fun x hx => h x (List.mem_cons_of_mem _ hx)
    cases i with
    | Morse c =>
      cases c with
      | Dit =>
        exact ⟨PlayAction.playTone (dotDurationMs cfg.unit) :: acts, by simp [playAudio, hacts]⟩
      | Dah =>
        exact ⟨PlayAction.playTone (dotDurationMs cfg.unit * 3) :: acts,
          by simp [playAudio, hacts]⟩
    | SymbolSpace =>
      exact ⟨PlayAction.wait (dotDurationMs cfg.unit) :: acts, by simp [playAudio, hacts]⟩
    | LetterSpace =>
      exact ⟨PlayAction.wait (dotDurationMs cfg.unit * 3) :: acts, by simp [playAudio, hacts]⟩
    | WordSpace => exact absurd rfl (h _ (by simp))

end MorseCli

namespace MorseCli

/-! ## Claim theorems -/

/-- C1: the claim states that with unit = 0.3 s a Dot yields
round(44100 × 0.3) = 13230 samples and a Dash 39690.  The code instead
computes `dit_samples = 44100 / unit` — dividing by the unit rather than
multiplying — so a Dot emits 147000 samples (about 3.33 s of audio) and a
Dash 441000, not 13230 and 39690. -/
theorem dit_sample_count_bug :
    ditSamples (3 / 10) = 147000 ∧ dahSamples (3 / 10) = 441000 ∧
    (renderAudio ⟨440, 3 / 10⟩ [Instruction.Morse MorseCode.Dit]).map List.length
      = some 147000 ∧
    (renderAudio ⟨440, 3 / 10⟩ [Instruction.Morse MorseCode.Dah]).map List.length
      = some 441000 ∧
    (147000 : ℕ) ≠ 13230 ∧ (441000 : ℕ) ≠ 39690 := by
  have hdit : ditSamples (3 / 10) = 147000 := by unfold ditSamples; norm_num; rfl
  have hdah : dahSamples (3 / 10) = 441000 := by unfold dahSamples; rw [hdit]
  refine ⟨hdit, hdah, ?_, ?_, by decide, by decide⟩
  · simp [renderAudio, instructionSamples, hdit]
  · simp [renderAudio, instructionSamples, hdah]

/-- C2: the claim states that any input containing a character other than
`.`, `-` or space makes the sequencer fail with `InvalidSymbol` and produce
no instructions.  The code instead silently drops the invalid character (the
`flatten` over `Result`s) and returns the remaining instructions: on ".x" it
returns one Dit tone with no error.  On a letter consisting only of invalid
characters, such as "x", it panics through the `letter.len() - 1` underflow
instead of reporting `InvalidSymbol`. -/
theorem invalid_char_dropped :
    parse_morse_code ".x" = some [Instruction.Morse MorseCode.Dit] ∧
    parse_morse_code "x" = none := by
  constructor <;> decide

/-- C3: on a valid Morse string the sequencer emits, per letter,
2 × symbols − 1 instructions, plus one LetterGap between consecutive letters:
in total the sum over letters of (2 × symbols − 1) plus (letters − 1). -/
theorem parse_length_formula (code : String) (h : validMorse code = true) :
    ∃ l, parse_morse_code code = some l ∧
      l.length = ((splitOnSpace code.toList).map fun w => 2 * w.length - 1).sum
        + ((splitOnSpace code.toList).length - 1) := by
  refine ⟨_, parse_morse_code_valid code h, ?_⟩
  rw [joinSep_length]
  simp only [lettersOf, List.map_map, List.length_map]
  rw [show ((splitOnSpace code.toList).map ((fun le => (letterBody le).length) ∘ letterInstructions))
        = (((splitOnSpace code.toList).map letterInstructions).map fun le => (letterBody le).length)
      from (List.map_map _ _ _).symm]
  rw [sum_letter_lengths (splitOnSpace code.toList) (validMorse_words code h)]

/-- Witness for C3 at the two-letter input ".- -...", which the claim says
yields exactly 11 instructions. -/
theorem parse_length_formula_witness :
    (parse_morse_code ".- -...").map List.length = some 11 := by
  obtain ⟨l, h1, h2⟩ := parse_length_formula ".- -..." (by decide)
  rw [h1, Option.map_some']
  rw [h2]
  decide

/-- C4 counterexample: the claim states that the error for an invalid
character carries the offending character.  At the concrete invalid input
'x' the parser returns the fixed message "unprocessable code points", in
which the character 'x' does not occur at all. -/
theorem tryFromChar_error_carries_no_char :
    MorseCode.tryFromChar 'x' = Except.error "unprocessable code points" ∧
    ¬ ('x' ∈ "unprocessable code points".toList) := by
  exact ⟨rfl, by decide⟩

/-- C4 (amended): the symbol parser returns Dit for '.', Dah for '-', and for
every other character fails with the constant error message "unprocessable
code points" — the same message for every invalid character, so the error
does not identify the offending character.  It is a pure function. -/
theorem tryFromChar_fixed_error (c : Char) (h1 : c ≠ '.') (h2 : c ≠ '-') :
    MorseCode.tryFromChar '.' = Except.ok MorseCode.Dit ∧
    MorseCode.tryFromChar '-' = Except.ok MorseCode.Dah ∧
    MorseCode.tryFromChar c = Except.error "unprocessable code points" ∧
    (∀ d : Char, d ≠ '.' → d ≠ '-' → MorseCode.tryFromChar c = MorseCode.tryFromChar d) := by
  have herr : ∀ e : Char, e ≠ '.' → e ≠ '-' →
      MorseCode.tryFromChar e = Except.error "unprocessable code points" := by
    intro e he1 he2
    unfold MorseCode.tryFromChar
    split <;> simp_all
  refine ⟨rfl, rfl, herr c h1 h2, ?_⟩
  intro d hd1 hd2
  rw [herr c h1 h2, herr d hd1 hd2]

/-- Witness for C4 at the concrete invalid character 'x'. -/
theorem tryFromChar_fixed_error_witness :
    MorseCode.tryFromChar '.' = Except.ok MorseCode.Dit ∧
    MorseCode.tryFromChar '-' = Except.ok MorseCode.Dah ∧
    MorseCode.tryFromChar 'x' = Except.error "unprocessable code points" ∧
    (∀ d : Char, d ≠ '.' → d ≠ '-' →
      MorseCode.tryFromChar 'x' = MorseCode.tryFromChar d) :=
  tryFromChar_fixed_error 'x' (by decide) (by decide)

/-- C5: on a non-empty valid Morse string the emitted sequence starts with a
Tone instruction and ends with a Tone instruction, never with a gap. -/
theorem parse_starts_ends_tone (code : String) (h : validMorse code = true)
    (hne : code ≠ "") :
    ∃ l s1 s2, parse_morse_code code = some l ∧
      l.head? = some (Instruction.Morse s1) ∧
      l.getLast? = some (Instruction.Morse s2) := by
  have hlet : ∀ le ∈ lettersOf code, le ≠ [] := validMorse_letters_ne_nil code h
  have hmorse : ∀ le ∈ lettersOf code, ∀ x ∈ le, ∃ s, x = Instruction.Morse s := by
    intro le hle
    simp only [lettersOf, List.mem_map] at hle
    obtain ⟨w, _, rfl⟩ := hle
    exact letterInstructions_morse w
  have hbody : ∀ le ∈ lettersOf code, letterBody le ≠ [] := by
    intro le hle
    rw [letterBody_eq_joinSep]
    exact joinSep_ne_nil _ _ _ (hlet le hle) (by intro a _; simp)
  obtain ⟨le0, restL, hcons⟩ : ∃ le0 restL, lettersOf code = le0 :: restL := by
    cases hL : lettersOf code with
    | nil => exact absurd hL (lettersOf_ne_nil code)
    | cons a b => exact ⟨a, b, rfl⟩
  have hle0 : le0 ∈ lettersOf code := by rw [hcons]; simp
  obtain ⟨i0, t0, hi0⟩ := List.exists_cons_of_ne_nil (hlet le0 hle0)
  have hhead : (joinSep letterBody Instruction.LetterSpace (lettersOf code)).head?
      = some i0 := by
    rw [hcons, joinSep_head _ _ _ _ (hbody le0 hle0)]
    rw [letterBody_eq_joinSep, hi0, joinSep_head _ _ _ _ (by simp)]
    rfl
  obtain ⟨s1, hs1⟩ := hmorse le0 hle0 i0 (by rw [hi0]; simp)
  obtain ⟨leL, hleL, hgl⟩ := joinSep_getLast letterBody Instruction.LetterSpace
    (lettersOf code) (lettersOf_ne_nil code) hbody
  obtain ⟨aL, haL, hgl2⟩ := joinSep_getLast (fun i => [i]) Instruction.SymbolSpace leL
    (hlet leL hleL) (by intro a _; simp)
  obtain ⟨s2, hs2⟩ := hmorse leL hleL aL haL
  refine ⟨_, s1, s2, parse_morse_code_valid code h, ?_, ?_⟩
  · rw [hhead, hs1]
  · rw [hgl, letterBody_eq_joinSep, hgl2, hs2]
    rfl

/-- Witness for C5 at the single-dot input ".". -/
theorem parse_starts_ends_tone_witness :
    ∃ l s1 s2, parse_morse_code "." = some l ∧
      l.head? = some (Instruction.Morse s1) ∧
      l.getLast? = some (Instruction.Morse s2) :=
  parse_starts_ends_tone "." (by decide) (by decide)

/-- C6: the single-letter single-symbol input "." parses without underflow to
exactly one Tone instruction and zero gap instructions. -/
theorem single_dot_parse :
    parse_morse_code "." = some [Instruction.Morse MorseCode.Dit] ∧
    sequencerUnderflows "." = false ∧
    [Instruction.Morse MorseCode.Dit].countP isTone = 1 ∧
    [Instruction.Morse MorseCode.Dit].countP isGap = 0 := by
  refine ⟨by decide, by decide, by decide, by decide⟩

/-- C7: the claim states that on the empty input the sequencer's
length-minus-one boundary computations do not underflow.  The code's inner
bound `letter.len() - 1` does underflow there: the empty input yields one
empty letter, `0usize - 1` panics in debug builds and wraps to `usize::MAX`
in release builds.  `sequencerUnderflows "" = true` records that the
underflowing subtraction is reached, and the parse result is the modelled
panic. -/
theorem empty_input_underflow :
    sequencerUnderflows "" = true ∧ parse_morse_code "" = none := by
  constructor <;> decide

/-- C9: offline rendering is deterministic: any two runs of the renderer on
the same instruction sequence and the same configuration write the same
header and the same sample stream, hence byte-identical WAV files. -/
theorem render_deterministic (cfg : RenderConfig) (ins : List Instruction)
    (out1 out2 : List Sample) (h1 : RendersTo cfg ins out1)
    (h2 : RendersTo cfg ins out2) :
    (renderSpec, out1) = (renderSpec, out2) := by
  have heq : out1 = out2 := by
    induction h1 generalizing out2 with
    | nil => cases h2; rfl
    | cons hs hrest ih =>
      cases h2 with
      | cons hs2 hrest2 =>
        have hss := Option.some.inj (hs.symm.trans hs2)
        rw [hss, ih _ hrest2]
  rw [heq]

/-- Witness for C9: two explicit runs on a one-gap sequence. -/
theorem render_deterministic_witness :
    ((renderSpec, List.replicate (ditSamples (3 / 10)) Sample.silence ++ ([] : List Sample))
      = (renderSpec, List.replicate (ditSamples (3 / 10)) Sample.silence ++ [])) :=
  render_deterministic ⟨440, 3 / 10⟩ [Instruction.SymbolSpace] _ _
    (RendersTo.cons rfl RendersTo.nil) (RendersTo.cons rfl RendersTo.nil)

/-- C10: whatever the input string, a sequence the sequencer produces never
contains a `WordSpace` instruction, so the `unreachable!()` catch-all arm of
each renderer's match is never taken on sequencer output: both renderers
succeed on it. -/
theorem no_word_space (code : String) (cfg : RenderConfig) (l : List Instruction)
    (h : parse_morse_code code = some l) :
    Instruction.WordSpace ∉ l ∧ (∃ out, renderAudio cfg l = some out) ∧
    (∃ acts, playAudio cfg l = some acts) := by
  have hmem := parse_morse_code_mem code l h
  exact ⟨fun hx => (hmem _ hx) rfl, renderAudio_total cfg l hmem, playAudio_total cfg l hmem⟩

/-- Witness for C10 at the input ".". -/
theorem no_word_space_witness :
    Instruction.WordSpace ∉ [Instruction.Morse MorseCode.Dit] ∧
    (∃ out, renderAudio ⟨440, 3 / 10⟩ [Instruction.Morse MorseCode.Dit] = some out) ∧
    (∃ acts, playAudio ⟨440, 3 / 10⟩ [Instruction.Morse MorseCode.Dit] = some acts) :=
  no_word_space "." ⟨440, 3 / 10⟩ [Instruction.Morse MorseCode.Dit] (by decide)

end MorseCli
